import Mathlib

/-!
# Verification of the envil SuperCollider block scanner

Shallow embedding of the two pure functions of the block-evaluation
component (`stripCommentsAndStrings`, the Masker, and `findCodeBlock`,
the Block Locator) from the extension source, together with proofs of
the specified properties.

Texts are modelled as `List Char`; a cursor position is modelled by its
flat character offset (the source converts a `(line, column)` position to
exactly such an offset with `document.offsetAt`, clamped to the text
length, before any scanning happens).
-/

namespace Envil

/-- The apostrophe / single-quote character (code point 39). -/
def squote : Char := Char.ofNat 39

/-- Character lookup at an index, with a blank default out of range.
JavaScript indexing out of range yields `undefined`; every comparison the
source performs against an out-of-range character is false both for
`undefined` and for `' '` at the places this default is reachable. -/
def chAt (l : List Char) (n : Nat) : Char := l.getD n ' '

/-- Scanner state of `stripCommentsAndStrings`: the position `i` of the
imperative loop is represented by the remaining suffix of the text, and
the mode the loop is in is one of these states.  `main prev` carries the
original character at `i - 1` (`none` at offset 0), which the source
consults as `text[i - 1]` for the `$'` character-literal exception. -/
inductive MState where
  | main (prev : Option Char)
  | lineC
  | blockC (d : Nat)
  | strC (q : Char)
deriving Repr, DecidableEq

/-- One pass of the masking loop of `stripCommentsAndStrings` (source
`part_001`, lines 204-253), state by state:

* `main`: dispatch on `//` (line comment), `/*` (block comment), `"`
  (string), `'` not preceded by `$` (symbol); otherwise copy the
  character.
* `lineC`: blank until a line terminator, which is left for `main`.
* `blockC d`: blank at nesting depth `d`; `/*` increments, `*/`
  decrements, depth 0 returns to `main`; newlines are preserved.
* `strC q`: blank until an unescaped closing `q`; a backslash consumes
  and blanks the following character (newlines stay). -/
def maskGo : MState → List Char → List Char
  | _, [] => []
  | .main prev, c :: rest =>
      if c = '/' then
        match rest with
        | [] => ['/']
        | c2 :: rest2 =>
            if c2 = '/' then ' ' :: ' ' :: maskGo .lineC rest2
            else if c2 = '*' then ' ' :: ' ' :: maskGo (.blockC 1) rest2
            else '/' :: maskGo (.main (some '/')) (c2 :: rest2)
      else if c = '"' then ' ' :: maskGo (.strC '"') rest
      else if c = squote ∧ prev ≠ some '$' then ' ' :: maskGo (.strC squote) rest
      else c :: maskGo (.main (some c)) rest
  | .lineC, c :: rest =>
      if c = '\n' ∨ c = '\r' then c :: maskGo (.main (some c)) rest
      else ' ' :: maskGo .lineC rest
  | .blockC d, c :: rest =>
      if c = '/' then
        match rest with
        | [] => [' ']
        | c2 :: rest2 =>
            if c2 = '*' then ' ' :: ' ' :: maskGo (.blockC (d + 1)) rest2
            else ' ' :: maskGo (.blockC d) (c2 :: rest2)
      else if c = '*' then
        match rest with
        | [] => [' ']
        | c2 :: rest2 =>
            if c2 = '/' then
              if d = 1 then ' ' :: ' ' :: maskGo (.main (some '/')) rest2
              else ' ' :: ' ' :: maskGo (.blockC (d - 1)) rest2
            else ' ' :: maskGo (.blockC d) (c2 :: rest2)
      else (if c = '\n' ∨ c = '\r' then c else ' ') :: maskGo (.blockC d) rest
  | .strC q, c :: rest =>
      if c = q then ' ' :: maskGo (.main (some q)) rest
      else if c = '\\' then
        match rest with
        | [] => [' ']
        | c2 :: rest2 =>
            ' ' :: (if c2 = '\n' ∨ c2 = '\r' then c2 else ' ') :: maskGo (.strC q) rest2
      else (if c = '\n' ∨ c = '\r' then c else ' ') :: maskGo (.strC q) rest

/-- `stripCommentsAndStrings` (the Masker): same-length copy of the text
with comment and string/symbol contents blanked. -/
def stripCommentsAndStrings (text : List Char) : List Char :=
  maskGo (.main none) text

/-- Line number of a flat offset (the `line` field of
`document.positionAt(offset)` / of a `Position`): the number of complete
line terminators (`\r\n` counted once, else `\n` or lone `\r`) strictly
before the offset. -/
def lineOf : List Char → Nat → Nat
  | [], _ => 0
  | _ :: _, 0 => 0
  | '\r' :: '\n' :: _, 1 => 0
  | '\r' :: '\n' :: rest, n + 2 => 1 + lineOf rest n
  | '\n' :: rest, n + 1 => 1 + lineOf rest n
  | '\r' :: rest, n + 1 => 1 + lineOf rest n
  | _ :: rest, n + 1 => lineOf rest n

/-- The text split into lines (`document.lineAt(k).text` is entry `k`),
line terminators `\r\n`, `\n`, `\r` removed. -/
def linesOf : List Char → List (List Char)
  | [] => [[]]
  | '\r' :: '\n' :: rest => [] :: linesOf rest
  | '\n' :: rest => [] :: linesOf rest
  | '\r' :: rest => [] :: linesOf rest
  | c :: rest =>
      match linesOf rest with
      | [] => [[c]]
      | l :: ls => (c :: l) :: ls

/-- JavaScript `String.prototype.trim` whitespace (the characters that can
occur here; full Unicode whitespace is irrelevant to line content). -/
def isJsSpace (c : Char) : Bool :=
  c = ' ' || c = '\t' || c = '\n' || c = '\r' || c = Char.ofNat 11 ||
  c = Char.ofNat 12 || c = Char.ofNat 160 || c = Char.ofNat 0xFEFF

/-- `text.trim()`. -/
def trimChars (l : List Char) : List Char :=
  ((l.dropWhile isJsSpace).reverse.dropWhile isJsSpace).reverse

/-- `isStartOfLine` of `findCodeBlock` (source lines 262-270): walk left
from `index - 1` over the ORIGINAL text; spaces and tabs are skipped, a
line terminator or the start of text means line-initial, anything else
does not.  Callers always pass `index < text.length`, so the out-of-range
default of `chAt` is never consulted. -/
def isStartOfLine (text : List Char) : Nat → Bool
  | 0 => true
  | j + 1 =>
      if chAt text j = '\n' ∨ chAt text j = '\r' then true
      else if chAt text j = ' ' ∨ chAt text j = '\t' then isStartOfLine text j
      else false

/-- Loop of `findMatchingClosing` over the suffix of the masked text from
the current index `i`: `(` increments the depth, `)` decrements it, and
the index of the `)` that brings the depth to zero is returned. -/
def fmcAux : Int → Nat → List Char → Option Nat
  | _, _, [] => none
  | depth, i, c :: rest =>
      if c = '(' then fmcAux (depth + 1) (i + 1) rest
      else if c = ')' then
        if depth - 1 = 0 then some i else fmcAux (depth - 1) (i + 1) rest
      else fmcAux depth (i + 1) rest

/-- `findMatchingClosing` (source lines 272-279); `none` models the
sentinel `-1`. -/
def findMatchingClosing (s : List Char) (startIndex : Nat) : Option Nat :=
  fmcAux 0 startIndex (s.drop startIndex)

/-- Loop of `isValidRegionEnd` over the masked text after the closing
parenthesis: spaces and tabs are skipped; the region end is valid iff the
first other character is a line terminator or `;`, or the text ends. -/
def validEndAux : List Char → Bool
  | [] => true
  | c :: rest =>
      if c = ' ' ∨ c = '\t' then validEndAux rest
      else decide (c = '\n' ∨ c = '\r' ∨ c = ';')

/-- `isValidRegionEnd` (source lines 281-288). -/
def isValidRegionEnd (s : List Char) (endIndex : Nat) : Bool :=
  validEndAux (s.drop (endIndex + 1))

/-- Contribution of one masked character to the backward depth counter of
the candidate scan: `)` counts `+1`, `(` counts `-1`. -/
def contrib (c : Char) : Int :=
  if c = ')' then 1 else if c = '(' then -1 else 0

/-- Sum of `contrib` over a character list. -/
def netList (l : List Char) : Int := (l.map contrib).sum

/-- Net backward depth over the inclusive index range `[lo, hi]` of `s`
(empty when `lo > hi`). -/
def sliceD (s : List Char) (lo hi : Nat) : Int :=
  netList ((s.drop lo).take (hi + 1 - lo))

/-- The guard under which the backward scan of `findCodeBlock` treats a
`(` as a candidate open (source line 303): the `(` is line-initial in the
ORIGINAL text and the depth after decrementing is at most `0`. -/
def candidateGuard (text : List Char) (i : Nat) (dAfter : Int) : Bool :=
  isStartOfLine text i && decide (dAfter ≤ 0)

/-- One iteration of the backward scan of `findCodeBlock` (source lines
297-314) at index `i`, turning the depth counter and the running result
into their next values.  `offset` is the (clamped) cursor offset and
`pline` the cursor's line. -/
def scanStep (text stripped : List Char) (offset pline : Nat) (i : Nat)
    (depth : Int) (result : Option (Nat × Nat)) : Int × Option (Nat × Nat) :=
  if chAt stripped i = ')' then (depth + 1, result)
  else if chAt stripped i = '(' then
    (depth - 1,
      if candidateGuard text i (depth - 1) then
        match findMatchingClosing stripped i with
        | some closeIndex =>
            if isValidRegionEnd stripped closeIndex ∧
                (offset ≤ closeIndex ∨ lineOf text closeIndex = pline) then
              some (i, closeIndex)
            else result
        | none => result
      else result)
  else (depth, result)

/-- The backward scan of `findCodeBlock` from index `i` down to `0`,
overwriting `result` at every valid candidate so the last-recorded
(leftmost) one wins. -/
def scanAux (text stripped : List Char) (offset pline : Nat) :
    Nat → Int → Option (Nat × Nat) → Option (Nat × Nat)
  | 0, depth, result => (scanStep text stripped offset pline 0 depth result).2
  | i + 1, depth, result =>
      let s := scanStep text stripped offset pline (i + 1) depth result
      scanAux text stripped offset pline i s.1 s.2

/-- The recorded region (start index, close index) of the backward scan
of `findCodeBlock`, `none` when no valid candidate was found.  The cursor
offset is clamped to the text length, as `document.offsetAt` does. -/
def scanResult (text : List Char) (rawOffset : Nat) : Option (Nat × Nat) :=
  let stripped := stripCommentsAndStrings text
  let offset := min rawOffset text.length
  scanAux text stripped offset (lineOf text offset) offset 0 none

/-- `findCodeBlock` (source lines 255-317): the original-text substring
`[i, j+1)` of the winning candidate, or the trimmed text of the cursor's
line when no valid candidate exists. -/
def findCodeBlock (text : List Char) (rawOffset : Nat) : List Char :=
  match scanResult text rawOffset with
  | some (i, j) => (text.drop i).take (j + 1 - i)
  | none => trimChars ((linesOf text).getD (lineOf text (min rawOffset text.length)) [])

/-- Declarative "candidate open at `i` is recorded as valid by the scan
started at `offset`" (cursor line `pline`), read off the source: the
masked character is `(`, the `(` is line-initial in the original text,
the net backward depth over `[i, offset]` is at most `0`, a matching `)`
exists at `j`, the region end at `j` is valid, and `j` is at or past the
cursor or on the cursor's line. -/
def validAtB (text stripped : List Char) (offset pline i : Nat) : Bool :=
  (decide (chAt stripped i = '(')) && isStartOfLine text i &&
  (decide (sliceD stripped i offset ≤ 0)) &&
  (match findMatchingClosing stripped i with
   | some j =>
      isValidRegionEnd stripped j &&
        (decide (offset ≤ j) || decide (lineOf text j = pline))
   | none => false)

/-- `validAtB` instantiated the way `findCodeBlock text rawOffset` uses it. -/
def isValidCand (text : List Char) (rawOffset i : Nat) : Bool :=
  validAtB text (stripCommentsAndStrings text) (min rawOffset text.length)
    (lineOf text (min rawOffset text.length)) i

/-- Declarative line-initiality over a text: every character strictly
before `i` back to the nearest line terminator (or the start of the text)
is a space or a tab. -/
def LineInitial (text : List Char) (i : Nat) : Prop :=
  (∀ j < i, chAt text j = ' ' ∨ chAt text j = '\t') ∨
  (∃ j < i, (chAt text j = '\n' ∨ chAt text j = '\r') ∧
    ∀ k, j < k → k < i → (chAt text k = ' ' ∨ chAt text k = '\t'))

/-- Modelled from the spec (claim C8's reading of it): a Masker variant
in which a single quote immediately preceded by `$` is never a symbol
delimiter — neither an opening one nor a CLOSING one.  It differs from
the source's `stripCommentsAndStrings` only in the symbol-closing test,
which here also consults the preceding original character (threaded
through every state as `prev`).  Used to exhibit that the source does not
implement this reading. -/
inductive CState where
  | main (prev : Option Char)
  | lineC (prev : Option Char)
  | blockC (d : Nat) (prev : Option Char)
  | strC (q : Char) (prev : Option Char)
deriving Repr, DecidableEq

/-- The claim-variant masking loop (see `CState`). -/
def maskClaimGo : CState → List Char → List Char
  | _, [] => []
  | .main prev, c :: rest =>
      if c = '/' then
        match rest with
        | [] => ['/']
        | c2 :: rest2 =>
            if c2 = '/' then ' ' :: ' ' :: maskClaimGo (.lineC (some '/')) rest2
            else if c2 = '*' then ' ' :: ' ' :: maskClaimGo (.blockC 1 (some '*')) rest2
            else '/' :: maskClaimGo (.main (some '/')) (c2 :: rest2)
      else if c = '"' then ' ' :: maskClaimGo (.strC '"' (some c)) rest
      else if c = squote ∧ prev ≠ some '$' then ' ' :: maskClaimGo (.strC squote (some c)) rest
      else c :: maskClaimGo (.main (some c)) rest
  | .lineC _, c :: rest =>
      if c = '\n' ∨ c = '\r' then c :: maskClaimGo (.main (some c)) rest
      else ' ' :: maskClaimGo (.lineC (some c)) rest
  | .blockC d _, c :: rest =>
      if c = '/' then
        match rest with
        | [] => [' ']
        | c2 :: rest2 =>
            if c2 = '*' then ' ' :: ' ' :: maskClaimGo (.blockC (d + 1) (some '*')) rest2
            else ' ' :: maskClaimGo (.blockC d (some '/')) (c2 :: rest2)
      else if c = '*' then
        match rest with
        | [] => [' ']
        | c2 :: rest2 =>
            if c2 = '/' then
              if d = 1 then ' ' :: ' ' :: maskClaimGo (.main (some '/')) rest2
              else ' ' :: ' ' :: maskClaimGo (.blockC (d - 1) (some '/')) rest2
            else ' ' :: maskClaimGo (.blockC d (some '*')) (c2 :: rest2)
      else (if c = '\n' ∨ c = '\r' then c else ' ') :: maskClaimGo (.blockC d (some c)) rest
  | .strC q prev, c :: rest =>
      if c = q ∧ ¬(q = squote ∧ prev = some '$') then ' ' :: maskClaimGo (.main (some q)) rest
      else if c = '\\' then
        match rest with
        | [] => [' ']
        | c2 :: rest2 =>
            ' ' :: (if c2 = '\n' ∨ c2 = '\r' then c2 else ' ') ::
              maskClaimGo (.strC q (some c2)) rest2
      else (if c = '\n' ∨ c = '\r' then c else ' ') :: maskClaimGo (.strC q (some c)) rest

/-- The claim-variant Masker (see `maskClaimGo`). -/
def stripClaimC8 (text : List Char) : List Char :=
  maskClaimGo (.main none) text

/-- Pointwise relation between a source character and the corresponding
masked character: the masked character is the original or a blank, and a
line terminator is always kept. -/
def MaskRel (a b : Char) : Prop :=
  (b = a ∨ b = ' ') ∧ ((a = '\n' ∨ a = '\r') → b = a)

/-- Invariant tying a `maskGo` scanning state to the previous character
`p2` the re-scan of the masked output sees at the same position: in
`main` the two previous characters agree on being `$` (the only property
the scanner reads off them), and a string/symbol state never has the
delimiter `$`. -/
def FixInv : MState → Option Char → Prop
  | .main p1, p2 => p1 = some '$' ↔ p2 = some '$'
  | .strC q, _ => q ≠ '$'
  | _, _ => True

/-- States whose string delimiter could never arise from the scanner's
own transitions are excluded from the structural lemmas: the source opens
string regions only on `"` and `'`, never on a line terminator. -/
def StateWF : MState → Prop
  | .strC q => q ≠ '\n' ∧ q ≠ '\r'
  | _ => True

/-! ## Equation lemmas for `maskGo`

The source loop dispatches on one- and two-character lookahead; these
lemmas expose each dispatch case of `maskGo` as a rewrite rule, with the
overlap side conditions made explicit. -/

theorem maskGo_nil (s : MState) : maskGo s [] = [] := maskGo.eq_1 s

theorem maskGo_main_lineComment (p : Option Char) (rest : List Char) :
    maskGo (.main p) ('/' :: '/' :: rest) = ' ' :: ' ' :: maskGo .lineC rest := by
  rw [maskGo.eq_3, if_pos rfl, if_pos rfl]

theorem maskGo_main_blockOpen (p : Option Char) (rest : List Char) :
    maskGo (.main p) ('/' :: '*' :: rest) = ' ' :: ' ' :: maskGo (.blockC 1) rest := by
  rw [maskGo.eq_3, if_pos rfl, if_neg (by decide), if_pos rfl]

theorem maskGo_main_dquote (p : Option Char) (rest : List Char) :
    maskGo (.main p) ('"' :: rest) = ' ' :: maskGo (.strC '"') rest := by
  cases rest with
  | nil => rw [maskGo.eq_2, if_neg (by decide), if_pos rfl]
  | cons c2 r2 => rw [maskGo.eq_3, if_neg (by decide), if_pos rfl]

theorem maskGo_main_squote_copy (rest : List Char) :
    maskGo (.main (some '$')) (squote :: rest) =
      squote :: maskGo (.main (some squote)) rest := by
  cases rest with
  | nil =>
    rw [maskGo.eq_2, if_neg (by decide), if_neg (by decide), if_neg (fun hh => hh.2 rfl)]
  | cons c2 r2 =>
    rw [maskGo.eq_3, if_neg (by decide), if_neg (by decide), if_neg (fun hh => hh.2 rfl)]

theorem maskGo_main_squote_open (p : Option Char) (rest : List Char) (h : p ≠ some '$') :
    maskGo (.main p) (squote :: rest) = ' ' :: maskGo (.strC squote) rest := by
  cases rest with
  | nil => rw [maskGo.eq_2, if_neg (by decide), if_neg (by decide), if_pos ⟨rfl, h⟩]
  | cons c2 r2 => rw [maskGo.eq_3, if_neg (by decide), if_neg (by decide), if_pos ⟨rfl, h⟩]

theorem maskGo_main_other (p : Option Char) (c : Char) (rest : List Char)
    (h1 : c ≠ '/') (h2 : c ≠ '"') (h3 : c ≠ squote) :
    maskGo (.main p) (c :: rest) = c :: maskGo (.main (some c)) rest := by
  cases rest with
  | nil => rw [maskGo.eq_2, if_neg h1, if_neg h2, if_neg (fun hh => h3 hh.1)]
  | cons c2 r2 => rw [maskGo.eq_3, if_neg h1, if_neg h2, if_neg (fun hh => h3 hh.1)]

theorem maskGo_main_slash_cons (p : Option Char) (c : Char) (rest : List Char)
    (h1 : c ≠ '/') (h2 : c ≠ '*') :
    maskGo (.main p) ('/' :: c :: rest) = '/' :: maskGo (.main (some '/')) (c :: rest) := by
  rw [maskGo.eq_3, if_pos rfl, if_neg h1, if_neg h2]

theorem maskGo_main_slash_nil (p : Option Char) :
    maskGo (.main p) ['/'] = ['/'] := by
  rw [maskGo.eq_2, if_pos rfl]

theorem maskGo_lineC_cons (c : Char) (rest : List Char) :
    maskGo .lineC (c :: rest) =
      if c = '\n' ∨ c = '\r' then c :: maskGo (.main (some c)) rest
      else ' ' :: maskGo .lineC rest := maskGo.eq_4 c rest

theorem maskGo_blockC_open (d : Nat) (rest : List Char) :
    maskGo (.blockC d) ('/' :: '*' :: rest) = ' ' :: ' ' :: maskGo (.blockC (d + 1)) rest := by
  rw [maskGo.eq_6, if_pos rfl, if_pos rfl]

theorem maskGo_blockC_close (d : Nat) (rest : List Char) :
    maskGo (.blockC d) ('*' :: '/' :: rest) =
      if d = 1 then ' ' :: ' ' :: maskGo (.main (some '/')) rest
      else ' ' :: ' ' :: maskGo (.blockC (d - 1)) rest := by
  rw [maskGo.eq_6, if_neg (by decide), if_pos rfl, if_pos rfl]

theorem maskGo_blockC_other (d : Nat) (c : Char) (rest : List Char)
    (h1 : c ≠ '/') (h2 : c ≠ '*') :
    maskGo (.blockC d) (c :: rest) =
      (if c = '\n' ∨ c = '\r' then c else ' ') :: maskGo (.blockC d) rest := by
  cases rest with
  | nil => rw [maskGo.eq_5, if_neg h1, if_neg h2]
  | cons c2 r2 => rw [maskGo.eq_6, if_neg h1, if_neg h2]

theorem maskGo_blockC_slash_cons (d : Nat) (c : Char) (rest : List Char) (h : c ≠ '*') :
    maskGo (.blockC d) ('/' :: c :: rest) = ' ' :: maskGo (.blockC d) (c :: rest) := by
  rw [maskGo.eq_6, if_pos rfl, if_neg h]

theorem maskGo_blockC_slash_nil (d : Nat) :
    maskGo (.blockC d) ['/'] = [' '] := by
  rw [maskGo.eq_5, if_pos rfl]

theorem maskGo_blockC_star_cons (d : Nat) (c : Char) (rest : List Char) (h : c ≠ '/') :
    maskGo (.blockC d) ('*' :: c :: rest) = ' ' :: maskGo (.blockC d) (c :: rest) := by
  rw [maskGo.eq_6, if_neg (by decide), if_pos rfl, if_neg h]

theorem maskGo_blockC_star_nil (d : Nat) :
    maskGo (.blockC d) ['*'] = [' '] := by
  rw [maskGo.eq_5, if_neg (by decide), if_pos rfl]

theorem maskGo_strC_close (q : Char) (rest : List Char) :
    maskGo (.strC q) (q :: rest) = ' ' :: maskGo (.main (some q)) rest := by
  cases rest with
  | nil => rw [maskGo.eq_7, if_pos rfl]
  | cons c2 r2 => rw [maskGo.eq_8, if_pos rfl]

theorem maskGo_strC_esc (q d : Char) (rest : List Char) (h : q ≠ '\\') :
    maskGo (.strC q) ('\\' :: d :: rest) =
      ' ' :: (if d = '\n' ∨ d = '\r' then d else ' ') :: maskGo (.strC q) rest := by
  rw [maskGo.eq_8, if_neg (Ne.symm h), if_pos rfl]

theorem maskGo_strC_esc_nil (q : Char) (h : q ≠ '\\') :
    maskGo (.strC q) ['\\'] = [' '] := by
  rw [maskGo.eq_7, if_neg (Ne.symm h), if_pos rfl]

theorem maskGo_strC_other (q c : Char) (rest : List Char) (h1 : c ≠ q) (h2 : c ≠ '\\') :
    maskGo (.strC q) (c :: rest) =
      (if c = '\n' ∨ c = '\r' then c else ' ') :: maskGo (.strC q) rest := by
  cases rest with
  | nil => rw [maskGo.eq_7, if_neg h1, if_neg h2]
  | cons c2 r2 => rw [maskGo.eq_8, if_neg h1, if_neg h2]

/-- The first masked character of a nonempty `main` run is the original
first character or a blank. -/
theorem maskGo_main_head (p : Option Char) (c : Char) (rest : List Char) :
    ∃ t, maskGo (.main p) (c :: rest) = c :: t ∨ maskGo (.main p) (c :: rest) = ' ' :: t := by
  by_cases h1 : c = '/'
  · subst h1
    cases rest with
    | nil => exact ⟨[], Or.inl (maskGo_main_slash_nil p)⟩
    | cons c2 r2 =>
      by_cases h2 : c2 = '/'
      · subst h2; rw [maskGo_main_lineComment]; exact ⟨_, Or.inr rfl⟩
      · by_cases h3 : c2 = '*'
        · subst h3; rw [maskGo_main_blockOpen]; exact ⟨_, Or.inr rfl⟩
        · rw [maskGo_main_slash_cons p c2 r2 h2 h3]; exact ⟨_, Or.inl rfl⟩
  · by_cases h2 : c = '"'
    · subst h2; rw [maskGo_main_dquote]; exact ⟨_, Or.inr rfl⟩
    · by_cases h3 : c = squote
      · subst h3
        by_cases hp : p = some '$'
        · subst hp; rw [maskGo_main_squote_copy]; exact ⟨_, Or.inl rfl⟩
        · rw [maskGo_main_squote_open p rest hp]; exact ⟨_, Or.inr rfl⟩
      · rw [maskGo_main_other p c rest h1 h2 h3]; exact ⟨_, Or.inl rfl⟩

/-! ## The mask is a same-length, blank-or-verbatim transform (claim C2) -/

theorem maskRel_refl (a : Char) : MaskRel a a := ⟨Or.inl rfl, fun _ => rfl⟩

theorem maskRel_blank (a : Char) (h1 : a ≠ '\n') (h2 : a ≠ '\r') : MaskRel a ' ' :=
  ⟨Or.inr rfl, fun hh => (hh.elim (fun x => absurd x h1) (fun x => absurd x h2))⟩

theorem maskRel_ite (a : Char) :
    MaskRel a (if a = '\n' ∨ a = '\r' then a else ' ') := by
  by_cases h : a = '\n' ∨ a = '\r'
  · rw [if_pos h]; exact maskRel_refl a
  · rw [if_neg h]
    push_neg at h
    exact maskRel_blank a h.1 h.2

/-- Structural masking invariant: in any well-formed scanner state, the
masked text relates to the source text pointwise by `MaskRel`. -/
theorem maskGo_shape (n : Nat) :
    ∀ (l : List Char), l.length ≤ n → ∀ (s : MState), StateWF s →
      List.Forall₂ MaskRel l (maskGo s l) := by
  induction n with
  | zero =>
    intro l hl s _
    have : l = [] := List.length_eq_zero.mp (Nat.le_zero.mp hl)
    subst this
    rw [maskGo_nil]
    exact List.Forall₂.nil
  | succ n ih =>
    intro l hl s hs
    cases l with
    | nil => rw [maskGo_nil]; exact List.Forall₂.nil
    | cons c rest =>
      have hr : rest.length ≤ n := by
        have := hl; simp only [List.length_cons] at this; omega
      cases s with
      | main p =>
        by_cases h1 : c = '/'
        · subst h1
          cases rest with
          | nil =>
            rw [maskGo_main_slash_nil]
            exact List.Forall₂.cons (maskRel_refl _) List.Forall₂.nil
          | cons c2 r2 =>
            have hr2 : r2.length ≤ n := by
              simp only [List.length_cons] at hl; omega
            by_cases h2 : c2 = '/'
            · subst h2
              rw [maskGo_main_lineComment]
              exact .cons (maskRel_blank _ (by decide) (by decide))
                (.cons (maskRel_blank _ (by decide) (by decide)) (ih r2 hr2 .lineC trivial))
            · by_cases h3 : c2 = '*'
              · subst h3
                rw [maskGo_main_blockOpen]
                exact .cons (maskRel_blank _ (by decide) (by decide))
                  (.cons (maskRel_blank _ (by decide) (by decide))
                    (ih r2 hr2 (.blockC 1) trivial))
              · rw [maskGo_main_slash_cons p c2 r2 h2 h3]
                exact .cons (maskRel_refl _) (ih (c2 :: r2) hr (.main (some '/')) trivial)
        · by_cases h2 : c = '"'
          · subst h2
            rw [maskGo_main_dquote]
            exact .cons (maskRel_blank _ (by decide) (by decide))
              (ih rest hr (.strC '"') (by exact ⟨by decide, by decide⟩))
          · by_cases h3 : c = squote
            · subst h3
              by_cases hp : p = some '$'
              · subst hp
                rw [maskGo_main_squote_copy]
                exact .cons (maskRel_refl _) (ih rest hr (.main (some squote)) trivial)
              · rw [maskGo_main_squote_open p rest hp]
                exact .cons (maskRel_blank _ (by decide) (by decide))
                  (ih rest hr (.strC squote) (by exact ⟨by decide, by decide⟩))
            · rw [maskGo_main_other p c rest h1 h2 h3]
              exact .cons (maskRel_refl _) (ih rest hr (.main (some c)) trivial)
      | lineC =>
        rw [maskGo_lineC_cons]
        by_cases h : c = '\n' ∨ c = '\r'
        · rw [if_pos h]
          exact .cons (maskRel_refl _) (ih rest hr (.main (some c)) trivial)
        · rw [if_neg h]
          push_neg at h
          exact .cons (maskRel_blank c h.1 h.2) (ih rest hr .lineC trivial)
      | blockC d =>
        by_cases h1 : c = '/'
        · subst h1
          cases rest with
          | nil =>
            rw [maskGo_blockC_slash_nil]
            exact .cons (maskRel_blank _ (by decide) (by decide)) List.Forall₂.nil
          | cons c2 r2 =>
            have hr2 : r2.length ≤ n := by
              simp only [List.length_cons] at hl; omega
            by_cases h2 : c2 = '*'
            · subst h2
              rw [maskGo_blockC_open]
              exact .cons (maskRel_blank _ (by decide) (by decide))
                (.cons (maskRel_blank _ (by decide) (by decide))
                  (ih r2 hr2 (.blockC (d + 1)) trivial))
            · rw [maskGo_blockC_slash_cons d c2 r2 h2]
              exact .cons (maskRel_blank _ (by decide) (by decide))
                (ih (c2 :: r2) hr (.blockC d) trivial)
        · by_cases h2 : c = '*'
          · subst h2
            cases rest with
            | nil =>
              rw [maskGo_blockC_star_nil]
              exact .cons (maskRel_blank _ (by decide) (by decide)) List.Forall₂.nil
            | cons c2 r2 =>
              have hr2 : r2.length ≤ n := by
                simp only [List.length_cons] at hl; omega
              by_cases h3 : c2 = '/'
              · subst h3
                rw [maskGo_blockC_close]
                by_cases hd : d = 1
                · rw [if_pos hd]
                  exact .cons (maskRel_blank _ (by decide) (by decide))
                    (.cons (maskRel_blank _ (by decide) (by decide))
                      (ih r2 hr2 (.main (some '/')) trivial))
                · rw [if_neg hd]
                  exact .cons (maskRel_blank _ (by decide) (by decide))
                    (.cons (maskRel_blank _ (by decide) (by decide))
                      (ih r2 hr2 (.blockC (d - 1)) trivial))
              · rw [maskGo_blockC_star_cons d c2 r2 h3]
                exact .cons (maskRel_blank _ (by decide) (by decide))
                  (ih (c2 :: r2) hr (.blockC d) trivial)
          · rw [maskGo_blockC_other d c rest h1 h2]
            exact .cons (maskRel_ite c) (ih rest hr (.blockC d) trivial)
      | strC q =>
        obtain ⟨hq1, hq2⟩ := hs
        by_cases h1 : c = q
        · subst h1
          rw [maskGo_strC_close]
          exact .cons (maskRel_blank c hq1 hq2) (ih rest hr (.main (some c)) trivial)
        · by_cases h2 : c = '\\'
          · subst h2
            cases rest with
            | nil =>
              rw [maskGo_strC_esc_nil q (fun hh => h1 hh.symm)]
              exact .cons (maskRel_blank _ (by decide) (by decide)) List.Forall₂.nil
            | cons c2 r2 =>
              have hr2 : r2.length ≤ n := by
                simp only [List.length_cons] at hl; omega
              rw [maskGo_strC_esc q c2 r2 (fun hh => h1 hh.symm)]
              exact .cons (maskRel_blank _ (by decide) (by decide))
                (.cons (maskRel_ite c2) (ih r2 hr2 (.strC q) ⟨hq1, hq2⟩))
          · rw [maskGo_strC_other q c rest h1 h2]
            exact .cons (maskRel_ite c) (ih rest hr (.strC q) ⟨hq1, hq2⟩)

/-! ## The Masker is idempotent (claim C9) -/

/-- Fixpoint invariant propagation: re-masking the output of any
well-formed masking run (in `main` with a previous-character view that
agrees on being `$`, or inside a region whose delimiter is not `$`)
reproduces it unchanged. -/
theorem maskGo_fix (n : Nat) :
    ∀ (l : List Char), l.length ≤ n → ∀ (s : MState) (p2 : Option Char), FixInv s p2 →
      maskGo (.main p2) (maskGo s l) = maskGo s l := by
  induction n with
  | zero =>
    intro l hl s p2 _
    have : l = [] := List.length_eq_zero.mp (Nat.le_zero.mp hl)
    subst this
    rw [maskGo_nil, maskGo_nil]
  | succ n ih =>
    intro l hl s p2 hinv
    cases l with
    | nil => rw [maskGo_nil, maskGo_nil]
    | cons c rest =>
      have hr : rest.length ≤ n := by
        simp only [List.length_cons] at hl; omega
      cases s with
      | main p =>
        by_cases h1 : c = '/'
        · subst h1
          cases rest with
          | nil =>
            rw [maskGo_main_slash_nil p]
            exact maskGo_main_slash_nil p2
          | cons c2 r2 =>
            have hr2 : r2.length ≤ n := by
              simp only [List.length_cons] at hl; omega
            by_cases h2 : c2 = '/'
            · subst h2
              rw [maskGo_main_lineComment]
              rw [maskGo_main_other p2 ' ' _ (by decide) (by decide) (by decide)]
              rw [maskGo_main_other (some ' ') ' ' _ (by decide) (by decide) (by decide)]
              rw [ih r2 hr2 .lineC (some ' ') trivial]
            · by_cases h3 : c2 = '*'
              · subst h3
                rw [maskGo_main_blockOpen]
                rw [maskGo_main_other p2 ' ' _ (by decide) (by decide) (by decide)]
                rw [maskGo_main_other (some ' ') ' ' _ (by decide) (by decide) (by decide)]
                rw [ih r2 hr2 (.blockC 1) (some ' ') trivial]
              · rw [maskGo_main_slash_cons p c2 r2 h2 h3]
                obtain ⟨t, ht | ht⟩ := maskGo_main_head (some '/') c2 r2
                · rw [ht, maskGo_main_slash_cons p2 c2 t h2 h3, ← ht,
                      ih (c2 :: r2) hr (.main (some '/')) (some '/') Iff.rfl]
                · rw [ht, maskGo_main_slash_cons p2 ' ' t (by decide) (by decide), ← ht,
                      ih (c2 :: r2) hr (.main (some '/')) (some '/') Iff.rfl]
        · by_cases h2 : c = '"'
          · subst h2
            rw [maskGo_main_dquote]
            rw [maskGo_main_other p2 ' ' _ (by decide) (by decide) (by decide)]
            rw [ih rest hr (.strC '"') (some ' ') (show ('"' : Char) ≠ '$' by decide)]
          · by_cases h3 : c = squote
            · subst h3
              by_cases hp : p = some '$'
              · subst hp
                have hp2 : p2 = some '$' := hinv.mp rfl
                subst hp2
                rw [maskGo_main_squote_copy]
                rw [maskGo_main_squote_copy]
                rw [ih rest hr (.main (some squote)) (some squote) Iff.rfl]
              · rw [maskGo_main_squote_open p rest hp]
                rw [maskGo_main_other p2 ' ' _ (by decide) (by decide) (by decide)]
                rw [ih rest hr (.strC squote) (some ' ') (show squote ≠ '$' by decide)]
            · rw [maskGo_main_other p c rest h1 h2 h3]
              rw [maskGo_main_other p2 c _ h1 h2 h3]
              rw [ih rest hr (.main (some c)) (some c) Iff.rfl]
      | lineC =>
        rw [maskGo_lineC_cons]
        by_cases h : c = '\n' ∨ c = '\r'
        · rw [if_pos h]
          rcases h with h | h <;> subst h
          · rw [maskGo_main_other p2 '\n' _ (by decide) (by decide) (by decide),
                ih rest hr (.main (some '\n')) (some '\n') Iff.rfl]
          · rw [maskGo_main_other p2 '\r' _ (by decide) (by decide) (by decide),
                ih rest hr (.main (some '\r')) (some '\r') Iff.rfl]
        · rw [if_neg h]
          rw [maskGo_main_other p2 ' ' _ (by decide) (by decide) (by decide),
              ih rest hr .lineC (some ' ') trivial]
      | blockC d =>
        by_cases h1 : c = '/'
        · subst h1
          cases rest with
          | nil =>
            rw [maskGo_blockC_slash_nil]
            rw [maskGo_main_other p2 ' ' _ (by decide) (by decide) (by decide), maskGo_nil]
          | cons c2 r2 =>
            have hr2 : r2.length ≤ n := by
              simp only [List.length_cons] at hl; omega
            by_cases h2 : c2 = '*'
            · subst h2
              rw [maskGo_blockC_open]
              rw [maskGo_main_other p2 ' ' _ (by decide) (by decide) (by decide)]
              rw [maskGo_main_other (some ' ') ' ' _ (by decide) (by decide) (by decide)]
              rw [ih r2 hr2 (.blockC (d + 1)) (some ' ') trivial]
            · rw [maskGo_blockC_slash_cons d c2 r2 h2]
              rw [maskGo_main_other p2 ' ' _ (by decide) (by decide) (by decide)]
              rw [ih (c2 :: r2) hr (.blockC d) (some ' ') trivial]
        · by_cases h2 : c = '*'
          · subst h2
            cases rest with
            | nil =>
              rw [maskGo_blockC_star_nil]
              rw [maskGo_main_other p2 ' ' _ (by decide) (by decide) (by decide), maskGo_nil]
            | cons c2 r2 =>
              have hr2 : r2.length ≤ n := by
                simp only [List.length_cons] at hl; omega
              by_cases h3 : c2 = '/'
              · subst h3
                rw [maskGo_blockC_close]
                by_cases hd : d = 1
                · rw [if_pos hd]
                  rw [maskGo_main_other p2 ' ' _ (by decide) (by decide) (by decide)]
                  rw [maskGo_main_other (some ' ') ' ' _ (by decide) (by decide) (by decide)]
                  rw [ih r2 hr2 (.main (some '/')) (some ' ')
                        (iff_of_false (by decide) (by decide))]
                · rw [if_neg hd]
                  rw [maskGo_main_other p2 ' ' _ (by decide) (by decide) (by decide)]
                  rw [maskGo_main_other (some ' ') ' ' _ (by decide) (by decide) (by decide)]
                  rw [ih r2 hr2 (.blockC (d - 1)) (some ' ') trivial]
              · rw [maskGo_blockC_star_cons d c2 r2 h3]
                rw [maskGo_main_other p2 ' ' _ (by decide) (by decide) (by decide)]
                rw [ih (c2 :: r2) hr (.blockC d) (some ' ') trivial]
          · rw [maskGo_blockC_other d c rest h1 h2]
            by_cases hnl : c = '\n' ∨ c = '\r'
            · rw [if_pos hnl]
              rcases hnl with h | h <;> subst h
              · rw [maskGo_main_other p2 '\n' _ (by decide) (by decide) (by decide),
                    ih rest hr (.blockC d) (some '\n') trivial]
              · rw [maskGo_main_other p2 '\r' _ (by decide) (by decide) (by decide),
                    ih rest hr (.blockC d) (some '\r') trivial]
            · rw [if_neg hnl]
              rw [maskGo_main_other p2 ' ' _ (by decide) (by decide) (by decide),
                  ih rest hr (.blockC d) (some ' ') trivial]
      | strC q =>
        have hq : q ≠ '$' := hinv
        by_cases h1 : c = q
        · subst h1
          rw [maskGo_strC_close]
          rw [maskGo_main_other p2 ' ' _ (by decide) (by decide) (by decide)]
          rw [ih rest hr (.main (some c)) (some ' ')
                (iff_of_false (fun hh => hq (Option.some.inj hh)) (by decide))]
        · by_cases h2 : c = '\\'
          · subst h2
            cases rest with
            | nil =>
              rw [maskGo_strC_esc_nil q (fun hh => h1 hh.symm)]
              rw [maskGo_main_other p2 ' ' _ (by decide) (by decide) (by decide), maskGo_nil]
            | cons c2 r2 =>
              have hr2 : r2.length ≤ n := by
                simp only [List.length_cons] at hl; omega
              rw [maskGo_strC_esc q c2 r2 (fun hh => h1 hh.symm)]
              by_cases hnl : c2 = '\n' ∨ c2 = '\r'
              · rw [if_pos hnl]
                rw [maskGo_main_other p2 ' ' _ (by decide) (by decide) (by decide)]
                rcases hnl with h | h <;> subst h
                · rw [maskGo_main_other (some ' ') '\n' _ (by decide) (by decide) (by decide),
                      ih r2 hr2 (.strC q) (some '\n') hq]
                · rw [maskGo_main_other (some ' ') '\r' _ (by decide) (by decide) (by decide),
                      ih r2 hr2 (.strC q) (some '\r') hq]
              · rw [if_neg hnl]
                rw [maskGo_main_other p2 ' ' _ (by decide) (by decide) (by decide)]
                rw [maskGo_main_other (some ' ') ' ' _ (by decide) (by decide) (by decide)]
                rw [ih r2 hr2 (.strC q) (some ' ') hq]
          · rw [maskGo_strC_other q c rest h1 h2]
            by_cases hnl : c = '\n' ∨ c = '\r'
            · rw [if_pos hnl]
              rcases hnl with h | h <;> subst h
              · rw [maskGo_main_other p2 '\n' _ (by decide) (by decide) (by decide),
                    ih rest hr (.strC q) (some '\n') hq]
              · rw [maskGo_main_other p2 '\r' _ (by decide) (by decide) (by decide),
                    ih rest hr (.strC q) (some '\r') hq]
            · rw [if_neg hnl]
              rw [maskGo_main_other p2 ' ' _ (by decide) (by decide) (by decide),
                  ih rest hr (.strC q) (some ' ') hq]

/-- Pointwise consequence of `List.Forall₂`: the relation holds at every
index under `chAt` (out of range, both sides give the default blank). -/
theorem forall₂_chAt {l l2 : List Char} (h : List.Forall₂ MaskRel l l2) :
    ∀ k, MaskRel (chAt l k) (chAt l2 k) := by
  induction h with
  | nil => intro k; exact maskRel_refl ' '
  | cons hR hrest ihh =>
    intro k
    cases k with
    | zero => exact hR
    | succ k => exact ihh k

/-- C2 (claim theorem): the masked text has exactly the length of the
source text; at every index the masked character is the original
character copied verbatim or a single blank; and every line terminator of
the source is preserved unchanged at the same index. -/
theorem stripCommentsAndStrings_mask_invariant (text : List Char) (k : Nat) :
    (stripCommentsAndStrings text).length = text.length ∧
    (chAt (stripCommentsAndStrings text) k = chAt text k ∨
      chAt (stripCommentsAndStrings text) k = ' ') ∧
    ((chAt text k = '\n' ∨ chAt text k = '\r') →
      chAt (stripCommentsAndStrings text) k = chAt text k) := by
  have h := maskGo_shape text.length text le_rfl (.main none) trivial
  have hk := forall₂_chAt h k
  exact ⟨h.length_eq.symm, hk.1, hk.2⟩

/-- C2 (witness): at the concrete text `"a\nb"` and index 1 the theorem
applies; its newline hypothesis is discharged there, and the preserved
character is the newline itself. -/
theorem stripCommentsAndStrings_mask_invariant_witness :
    (stripCommentsAndStrings "a\nb".toList).length = "a\nb".toList.length ∧
    chAt (stripCommentsAndStrings "a\nb".toList) 1 = '\n' := by
  refine ⟨(stripCommentsAndStrings_mask_invariant "a\nb".toList 1).1, ?_⟩
  have := (stripCommentsAndStrings_mask_invariant "a\nb".toList 1).2.2 (by decide)
  rw [this]; decide

/-- C9 (claim theorem): the Masker is idempotent — masking an already
masked text changes nothing. -/
theorem stripCommentsAndStrings_idempotent (text : List Char) :
    stripCommentsAndStrings (stripCommentsAndStrings text) = stripCommentsAndStrings text :=
  maskGo_fix text.length text le_rfl (.main none) none (iff_of_false (by decide) (by decide))

/-- C6 (claim theorem): block comments nest.  An inner `/*` increments
the depth and an inner `*/` decrements it (first two conjuncts, at any
depth and continuation), the comment ends only when the depth returns to
zero, and concretely the whole of `"/* a /* b */ c */ d"` through the
second `*/` is blanked while `" d"` survives. -/
theorem blockComment_nesting :
    (∀ (d : Nat) (rest : List Char),
      maskGo (.blockC d) ('/' :: '*' :: rest) = ' ' :: ' ' :: maskGo (.blockC (d + 1)) rest) ∧
    (∀ (d : Nat) (rest : List Char), d ≠ 1 →
      maskGo (.blockC d) ('*' :: '/' :: rest) = ' ' :: ' ' :: maskGo (.blockC (d - 1)) rest) ∧
    (∀ (rest : List Char),
      maskGo (.blockC 1) ('*' :: '/' :: rest) = ' ' :: ' ' :: maskGo (.main (some '/')) rest) ∧
    stripCommentsAndStrings "/* a /* b */ c */ d".toList =
      (List.replicate 18 ' ' ++ ['d']) := by
  refine ⟨fun d rest => maskGo_blockC_open d rest, ?_, ?_, by decide⟩
  · intro d rest hd
    rw [maskGo_blockC_close, if_neg hd]
  · intro rest
    rw [maskGo_blockC_close, if_pos rfl]

/-- C6 (witness): the nesting equations applied at depth 2 with an empty
continuation, discharging the `d ≠ 1` hypothesis. -/
theorem blockComment_nesting_witness :
    maskGo (.blockC 2) ('*' :: '/' :: []) = ' ' :: ' ' :: maskGo (.blockC 1) [] :=
  blockComment_nesting.2.1 2 [] (by decide)

/-- C7 (claim theorem): inside a double-quoted string region a backslash
escapes the following character — both are blanked (the escaped character
is kept only if it is a line terminator, which never equals `"`), and the
scan stays inside the string region, so an escaped `"` does not terminate
it; concretely the six-character literal `"a\"b"` is blanked entirely. -/
theorem string_escape_handling :
    (∀ (c : Char) (rest : List Char),
      maskGo (.strC '"') ('\\' :: c :: rest) =
        ' ' :: (if c = '\n' ∨ c = '\r' then c else ' ') :: maskGo (.strC '"') rest) ∧
    stripCommentsAndStrings ['"', 'a', '\\', '"', 'b', '"'] = List.replicate 6 ' ' := by
  refine ⟨fun c rest => maskGo_strC_esc '"' c rest (by decide), by decide⟩

/-- C10 (claim theorem): the character-literal exception applies only to
single quotes — a double quote opens a string region regardless of the
previous character (first conjunct, for every `prev`), and concretely in
`"$\" (x)"` everything after the `$` is blanked as an unterminated
string, so the `(` is invisible to the Block Locator. -/
theorem dollar_dquote_opens_string :
    (∀ (prev : Option Char) (rest : List Char),
      maskGo (.main prev) ('"' :: rest) = ' ' :: maskGo (.strC '"') rest) ∧
    stripCommentsAndStrings "$\" (x)".toList = '$' :: List.replicate 5 ' ' := by
  refine ⟨fun prev rest => maskGo_main_dquote prev rest, by decide⟩

/-! ## Index and depth bookkeeping for the Block Locator -/

theorem chAt_cons_zero (c : Char) (l : List Char) : chAt (c :: l) 0 = c := rfl

theorem chAt_cons_succ (c : Char) (l : List Char) (k : Nat) :
    chAt (c :: l) (k + 1) = chAt l k := rfl

theorem chAt_drop (s : List Char) (n m : Nat) : chAt (s.drop n) m = chAt s (n + m) := by
  simp [chAt, List.getD_eq_getElem?_getD, List.getElem?_drop]

theorem sliceD_empty (s : List Char) (n : Nat) : sliceD s (n + 1) n = 0 := by
  simp [sliceD, Nat.sub_self, netList]

theorem sliceD_cons (s : List Char) (lo hi : Nat) (h : lo ≤ hi) :
    sliceD s lo hi = contrib (chAt s lo) + sliceD s (lo + 1) hi := by
  by_cases hlen : lo < s.length
  · have hdrop : s.drop lo = s[lo] :: s.drop (lo + 1) := List.drop_eq_getElem_cons hlen
    have htake : hi + 1 - lo = (hi - lo) + 1 := by omega
    have htake2 : hi + 1 - (lo + 1) = hi - lo := by omega
    have hch : chAt s lo = s[lo] := by
      simp [chAt, List.getD_eq_getElem?_getD, List.getElem?_eq_getElem hlen]
    rw [sliceD, hdrop, htake, List.take_succ_cons, sliceD, htake2, hch]
    simp [netList]
  · have h1 : s.drop lo = [] := List.drop_eq_nil_of_le (by omega)
    have h2 : s.drop (lo + 1) = [] := List.drop_eq_nil_of_le (by omega)
    have hch : chAt s lo = ' ' := by
      simp [chAt, List.getD_eq_getElem?_getD, List.getElem?_eq_none (show s.length ≤ lo by omega)]
    rw [sliceD, sliceD, h1, h2, hch]
    simp [netList, contrib]

/-- `validAtB` unfolded to its defining conjunction. -/
theorem validAtB_iff (text stripped : List Char) (offset pline i : Nat) :
    validAtB text stripped offset pline i = true ↔
      (chAt stripped i = '(' ∧ isStartOfLine text i = true ∧
        sliceD stripped i offset ≤ 0 ∧
        ∃ j, findMatchingClosing stripped i = some j ∧
          isValidRegionEnd stripped j = true ∧ (offset ≤ j ∨ lineOf text j = pline)) := by
  unfold validAtB
  cases hf : findMatchingClosing stripped i with
  | none => simp [hf]
  | some j =>
    simp only [hf, Bool.and_eq_true, decide_eq_true_eq, Bool.or_eq_true,
      Option.some.injEq]
    constructor
    · rintro ⟨⟨⟨hp, hs⟩, hd⟩, he, hor⟩
      exact ⟨hp, hs, hd, j, rfl, he, hor⟩
    · rintro ⟨hp, hs, hd, j2, hj2, he, hor⟩
      cases hj2
      exact ⟨⟨⟨hp, hs⟩, hd⟩, he, hor⟩

/-- `isStartOfLine` computes exactly the declarative line-initiality over
the original text (claim C3, amended): only spaces and tabs lie between
the nearest line terminator (or the start of text) and the index. -/
theorem isStartOfLine_iff_lineInitial (text : List Char) :
    ∀ i, isStartOfLine text i = true ↔ LineInitial text i := by
  intro i
  induction i with
  | zero =>
    constructor
    · intro _
      exact Or.inl (fun j hj => absurd hj (Nat.not_lt_zero j))
    · intro _
      rfl
  | succ i ihx =>
    by_cases hnl : chAt text i = '\n' ∨ chAt text i = '\r'
    · constructor
      · intro _
        exact Or.inr ⟨i, Nat.lt_succ_self i, hnl, fun k hk1 hk2 => by omega⟩
      · intro _
        simp only [isStartOfLine]
        rw [if_pos hnl]
    · by_cases hst : chAt text i = ' ' ∨ chAt text i = '\t'
      · have lhs_eq : isStartOfLine text (i + 1) = isStartOfLine text i := by
          simp only [isStartOfLine]
          rw [if_neg hnl, if_pos hst]
        rw [lhs_eq, ihx]
        constructor
        · intro h
          rcases h with h | ⟨j, hj, hnlj, hrest⟩
          · refine Or.inl (fun j hj => ?_)
            rcases Nat.lt_succ_iff_lt_or_eq.mp hj with hlt | heq
            · exact h j hlt
            · subst heq; exact hst
          · refine Or.inr ⟨j, by omega, hnlj, fun k hk1 hk2 => ?_⟩
            rcases Nat.lt_succ_iff_lt_or_eq.mp hk2 with hlt | heq
            · exact hrest k hk1 hlt
            · subst heq; exact hst
        · intro h
          rcases h with h | ⟨j, hj, hnlj, hrest⟩
          · exact Or.inl (fun j hj2 => h j (by omega))
          · have hji : j ≠ i := fun he => hnl (he ▸ hnlj)
            exact Or.inr ⟨j, by omega, hnlj, fun k hk1 hk2 => hrest k hk1 (by omega)⟩
      · constructor
        · intro h
          exfalso
          simp only [isStartOfLine] at h
          rw [if_neg hnl, if_neg hst] at h
          exact absurd h (by decide)
        · intro h
          exfalso
          rcases h with h | ⟨j, hj, hnlj, hrest⟩
          · exact hst (h i (Nat.lt_succ_self i))
          · rcases Nat.lt_succ_iff_lt_or_eq.mp hj with hlt | heq
            · exact hst (hrest i hlt (Nat.lt_succ_self i))
            · subst heq; exact hnl hnlj

/-- The loop of `isValidRegionEnd`, declaratively: if the scan accepts,
then the first non-space, non-tab character of the remaining text (if one
exists) is a line terminator or a semicolon. -/
theorem validEndAux_decl (l : List Char) (hv : validEndAux l = true) :
    ∀ m, m < l.length → (∀ m2 < m, chAt l m2 = ' ' ∨ chAt l m2 = '\t') →
      ¬(chAt l m = ' ' ∨ chAt l m = '\t') →
      (chAt l m = '\n' ∨ chAt l m = '\r' ∨ chAt l m = ';') := by
  induction l with
  | nil => intro m hm; simp at hm
  | cons c rest ihl =>
    intro m hm hpre hcur
    cases m with
    | zero =>
      have hc : ¬(c = ' ' ∨ c = '\t') := by
        simpa [chAt_cons_zero] using hcur
      simp only [validEndAux] at hv
      rw [if_neg hc] at hv
      simpa [chAt_cons_zero] using of_decide_eq_true hv
    | succ m =>
      have hc : c = ' ' ∨ c = '\t' := by
        simpa [chAt_cons_zero] using hpre 0 (Nat.succ_pos m)
      simp only [validEndAux] at hv
      rw [if_pos hc] at hv
      have hm2 : m < rest.length := by
        simpa [List.length_cons] using hm
      refine ?_
      have := ihl hv m hm2
        (fun m2 hm2x => by simpa [chAt_cons_succ] using hpre (m2 + 1) (by omega))
        (by simpa [chAt_cons_succ] using hcur)
      simpa [chAt_cons_succ] using this

/-! ## Characterizing one step of the backward scan -/

/-- The depth counter after the step at index `i` equals the net depth of
the masked range `[i, offset]`. -/
theorem scanStep_depth (text stripped : List Char) (offset pline i : Nat) (d : Int)
    (r : Option (Nat × Nat)) (hio : i ≤ offset)
    (hd : d = sliceD stripped (i + 1) offset) :
    (scanStep text stripped offset pline i d r).1 = sliceD stripped i offset := by
  have hslice : sliceD stripped i offset = contrib (chAt stripped i) + d := by
    rw [sliceD_cons stripped i offset hio, hd]
  simp only [scanStep]
  by_cases hc1 : chAt stripped i = ')'
  · rw [if_pos hc1]
    have : contrib (chAt stripped i) = 1 := by rw [hc1]; decide
    rw [hslice, this]; omega
  · rw [if_neg hc1]
    by_cases hc2 : chAt stripped i = '('
    · rw [if_pos hc2]
      have : contrib (chAt stripped i) = -1 := by rw [hc2]; decide
      rw [hslice, this]; omega
    · rw [if_neg hc2]
      have : contrib (chAt stripped i) = 0 := by
        unfold contrib
        rw [if_neg hc1, if_neg hc2]
      rw [hslice, this]; omega

/-- The running result after the step at index `i`: it is unchanged when
`i` is not a recorded valid candidate, and it is overwritten with the
candidate's region when it is. -/
theorem scanStep_result (text stripped : List Char) (offset pline i : Nat) (d : Int)
    (r : Option (Nat × Nat)) (hio : i ≤ offset)
    (hd : d = sliceD stripped (i + 1) offset) :
    (validAtB text stripped offset pline i = false ∧
      (scanStep text stripped offset pline i d r).2 = r) ∨
    (validAtB text stripped offset pline i = true ∧
      ∃ j, findMatchingClosing stripped i = some j ∧
        (scanStep text stripped offset pline i d r).2 = some (i, j)) := by
  have hslice : sliceD stripped i offset = contrib (chAt stripped i) + d := by
    rw [sliceD_cons stripped i offset hio, hd]
  by_cases hc1 : chAt stripped i = ')'
  · left
    refine ⟨Bool.eq_false_iff.mpr (fun hvv => ?_), ?_⟩
    · obtain ⟨hp, -⟩ := (validAtB_iff text stripped offset pline i).mp hvv
      rw [hc1] at hp
      exact absurd hp (by decide)
    · simp only [scanStep]
      rw [if_pos hc1]
  · by_cases hc2 : chAt stripped i = '('
    · have hsl : sliceD stripped i offset = d - 1 := by
        have hcon : contrib (chAt stripped i) = -1 := by rw [hc2]; decide
        rw [hslice, hcon]; omega
      have hstep : (scanStep text stripped offset pline i d r).2 =
          (if candidateGuard text i (d - 1) then
            match findMatchingClosing stripped i with
            | some closeIndex =>
                if isValidRegionEnd stripped closeIndex ∧
                    (offset ≤ closeIndex ∨ lineOf text closeIndex = pline) then
                  some (i, closeIndex)
                else r
            | none => r
          else r) := by
        simp only [scanStep]
        rw [if_neg hc1, if_pos hc2]
      by_cases hg : candidateGuard text i (d - 1) = true
      · have hg2 := hg
        simp only [candidateGuard, Bool.and_eq_true, decide_eq_true_eq] at hg2
        obtain ⟨hsol, hdle⟩ := hg2
        have hdle2 : sliceD stripped i offset ≤ 0 := by
          rw [hsl]; exact hdle
        cases hfmc : findMatchingClosing stripped i with
        | none =>
          left
          refine ⟨Bool.eq_false_iff.mpr (fun hvv => ?_), ?_⟩
          · obtain ⟨-, -, -, j, hj, -⟩ := (validAtB_iff text stripped offset pline i).mp hvv
            rw [hfmc] at hj
            exact absurd hj (by simp)
          · rw [hstep, if_pos hg, hfmc]
        | some j =>
          by_cases hcond : (isValidRegionEnd stripped j = true ∧
              (offset ≤ j ∨ lineOf text j = pline))
          · right
            refine ⟨?_, j, rfl, ?_⟩
            · rw [validAtB_iff]
              exact ⟨hc2, hsol, hdle2, j, hfmc, hcond.1, hcond.2⟩
            · rw [hstep, if_pos hg, hfmc]
              exact if_pos hcond
          · left
            refine ⟨Bool.eq_false_iff.mpr (fun hvv => ?_), ?_⟩
            · obtain ⟨-, -, -, j2, hj2, he, hor⟩ :=
                (validAtB_iff text stripped offset pline i).mp hvv
              rw [hfmc] at hj2
              injection hj2 with hj2
              subst hj2
              exact hcond ⟨he, hor⟩
            · rw [hstep, if_pos hg, hfmc]
              exact if_neg hcond
      · left
        refine ⟨Bool.eq_false_iff.mpr (fun hvv => ?_), ?_⟩
        · obtain ⟨-, hsol, hdle, -⟩ := (validAtB_iff text stripped offset pline i).mp hvv
          apply hg
          simp only [candidateGuard, Bool.and_eq_true, decide_eq_true_eq]
          refine ⟨hsol, ?_⟩
          rw [← hsl]
          exact hdle
        · rw [hstep, if_neg hg]
    · left
      refine ⟨Bool.eq_false_iff.mpr (fun hvv => ?_), ?_⟩
      · obtain ⟨hp, -⟩ := (validAtB_iff text stripped offset pline i).mp hvv
        exact hc2 hp
      · simp only [scanStep]
        rw [if_neg hc1, if_neg hc2]

/-! ## The backward scan, characterized -/

/-- When no index up to `i` is a valid candidate, the scan leaves the
running result untouched. -/
theorem scanAux_none (text stripped : List Char) (offset pline : Nat) :
    ∀ (i : Nat) (d : Int) (r : Option (Nat × Nat)), i ≤ offset →
      d = sliceD stripped (i + 1) offset →
      (∀ k, k ≤ i → validAtB text stripped offset pline k = false) →
      scanAux text stripped offset pline i d r = r := by
  intro i
  induction i with
  | zero =>
    intro d r hio hd hall
    simp only [scanAux]
    rcases scanStep_result text stripped offset pline 0 d r hio hd with ⟨-, h⟩ | ⟨hv, -⟩
    · exact h
    · rw [hall 0 (le_refl 0)] at hv
      exact absurd hv (by decide)
  | succ i ihx =>
    intro d r hio hd hall
    simp only [scanAux]
    rcases scanStep_result text stripped offset pline (i + 1) d r hio hd with ⟨-, h2⟩ | ⟨hv, -⟩
    · rw [scanStep_depth text stripped offset pline (i + 1) d r hio hd, h2]
      exact ihx _ r (by omega) rfl (fun k hk => hall k (by omega))
    · rw [hall (i + 1) (le_refl (i + 1))] at hv
      exact absurd hv (by decide)

/-- When `i0` is a valid candidate and no smaller index is, the scan from
any `i ≥ i0` returns exactly `i0`'s region: later recordings are
overwritten by the leftmost one. -/
theorem scanAux_least (text stripped : List Char) (offset pline : Nat) :
    ∀ (i : Nat) (d : Int) (r : Option (Nat × Nat)) (i0 j : Nat), i ≤ offset →
      d = sliceD stripped (i + 1) offset →
      i0 ≤ i →
      validAtB text stripped offset pline i0 = true →
      findMatchingClosing stripped i0 = some j →
      (∀ k, k < i0 → validAtB text stripped offset pline k = false) →
      scanAux text stripped offset pline i d r = some (i0, j) := by
  intro i
  induction i with
  | zero =>
    intro d r i0 j hio hd hi0 hv hf hmin
    have h00 : i0 = 0 := Nat.le_zero.mp hi0
    subst h00
    simp only [scanAux]
    rcases scanStep_result text stripped offset pline 0 d r hio hd with ⟨hv2, -⟩ | ⟨-, j2, hf2, h2⟩
    · rw [hv] at hv2
      exact absurd hv2 (by decide)
    · rw [hf] at hf2
      injection hf2 with hj
      subst hj
      exact h2
  | succ i ihx =>
    intro d r i0 j hio hd hi0 hv hf hmin
    simp only [scanAux]
    rw [scanStep_depth text stripped offset pline (i + 1) d r hio hd]
    by_cases hi0eq : i0 = i + 1
    · subst hi0eq
      rcases scanStep_result text stripped offset pline (i + 1) d r hio hd with
        ⟨hv2, -⟩ | ⟨-, j2, hf2, h2⟩
      · rw [hv] at hv2
        exact absurd hv2 (by decide)
      · rw [hf] at hf2
        injection hf2 with hj
        subst hj
        rw [h2]
        exact scanAux_none text stripped offset pline i _ _ (by omega) rfl
          (fun k hk => hmin k (by omega))
    · exact ihx _ _ i0 j (by omega) rfl (by omega) hv hf hmin

/-- Whatever the scan returns beyond its initial value comes from a valid
candidate together with its matching close. -/
theorem scanAux_range (text stripped : List Char) (offset pline : Nat) :
    ∀ (i : Nat) (d : Int) (r : Option (Nat × Nat)), i ≤ offset →
      d = sliceD stripped (i + 1) offset →
      scanAux text stripped offset pline i d r = r ∨
      ∃ k j, k ≤ i ∧ validAtB text stripped offset pline k = true ∧
        findMatchingClosing stripped k = some j ∧
        scanAux text stripped offset pline i d r = some (k, j) := by
  intro i
  induction i with
  | zero =>
    intro d r hio hd
    simp only [scanAux]
    rcases scanStep_result text stripped offset pline 0 d r hio hd with ⟨-, h⟩ | ⟨hv, j, hf, h⟩
    · left; exact h
    · right; exact ⟨0, j, le_refl 0, hv, hf, h⟩
  | succ i ihx =>
    intro d r hio hd
    simp only [scanAux]
    rw [scanStep_depth text stripped offset pline (i + 1) d r hio hd]
    rcases ihx (sliceD stripped (i + 1) offset)
        ((scanStep text stripped offset pline (i + 1) d r).2) (by omega) rfl with
      h | ⟨k, j, hk, hv, hf, h⟩
    · rcases scanStep_result text stripped offset pline (i + 1) d r hio hd with
        ⟨-, h2⟩ | ⟨hv, j, hf, h2⟩
      · left; rw [h, h2]
      · right; exact ⟨i + 1, j, le_refl (i + 1), hv, hf, by rw [h, h2]⟩
    · right; exact ⟨k, j, by omega, hv, hf, h⟩

/-! ## Claim theorems for the Block Locator -/

/-- C1 (claim theorem): among the valid candidates of the backward scan
the leftmost (last-recorded) one determines the result: if `i` is a valid
candidate with matching close `j` and no smaller index is a valid
candidate, `findCodeBlock` returns exactly the original-text substring
`[i, j+1)` — with nested line-initial valid blocks this is the outermost
block, parentheses included. -/
theorem findCodeBlock_outermost (text : List Char) (raw i j : Nat)
    (hio : i ≤ min raw text.length)
    (hv : isValidCand text raw i = true)
    (hmin : ∀ k, k < i → isValidCand text raw k = false)
    (hf : findMatchingClosing (stripCommentsAndStrings text) i = some j) :
    findCodeBlock text raw = (text.drop i).take (j + 1 - i) := by
  simp only [isValidCand] at hv hmin
  simp only [findCodeBlock, scanResult]
  rw [scanAux_least text (stripCommentsAndStrings text) (min raw text.length)
        (lineOf text (min raw text.length)) (min raw text.length) 0 none i j
        (le_refl _) (sliceD_empty _ _).symm hio hv hf hmin]

/-- C1 (witness): the spec's nested example — cursor inside the inner
block, both blocks valid and line-initial; the whole outer block is
returned. -/
theorem findCodeBlock_outermost_witness :
    findCodeBlock "(\n(\n~x = 1;\n)\n)".toList 5 = "(\n(\n~x = 1;\n)\n)".toList := by
  have h := findCodeBlock_outermost "(\n(\n~x = 1;\n)\n)".toList 5 0 14 (by decide)
      (by decide) (fun k hk => absurd hk (Nat.not_lt_zero k)) (by decide)
  exact h.trans (by decide)

/-- C5 (claim theorem): `findCodeBlock` is total by construction; when no
valid candidate open exists up to the (clamped) cursor offset it returns
the trimmed text of the cursor's line, and on the empty text with cursor
at offset 0 it returns the empty string. -/
theorem findCodeBlock_total_fallback :
    (∀ (text : List Char) (raw : Nat),
      (∀ k, k ≤ min raw text.length → isValidCand text raw k = false) →
      findCodeBlock text raw =
        trimChars ((linesOf text).getD (lineOf text (min raw text.length)) [])) ∧
    findCodeBlock [] 0 = [] := by
  constructor
  · intro text raw hall
    simp only [isValidCand] at hall
    simp only [findCodeBlock, scanResult]
    rw [scanAux_none text (stripCommentsAndStrings text) (min raw text.length)
          (lineOf text (min raw text.length)) (min raw text.length) 0 none
          (le_refl _) (sliceD_empty _ _).symm hall]
  · decide

/-- C5 (witness): on `"foo(1, 2)"` the only `(` is not line-initial, so
no candidate exists and the trimmed line is returned. -/
theorem findCodeBlock_total_fallback_witness :
    findCodeBlock "foo(1, 2)".toList 5 = "foo(1, 2)".toList := by
  have h := findCodeBlock_total_fallback.1 "foo(1, 2)".toList 5 (by decide)
  exact h.trans (by decide)

/-- C4 (claim theorem): whenever the Locator settles on a region
`[i, j+1)` instead of the line fallback, the first character after `j`
in the masked text that is not a space or tab — if one exists — is a
line terminator or a semicolon; and on `"(\n  1 + 1\n) + 2"` with the
cursor inside the parentheses the sole candidate is invalid (the close is
followed by `+ 2`), so the trimmed cursor line is returned instead. -/
theorem findCodeBlock_region_end :
    (∀ (text : List Char) (raw i j k : Nat),
      scanResult text raw = some (i, j) →
      j < k → k < (stripCommentsAndStrings text).length →
      (∀ m < k, j < m →
        (chAt (stripCommentsAndStrings text) m = ' ' ∨
          chAt (stripCommentsAndStrings text) m = '\t')) →
      ¬(chAt (stripCommentsAndStrings text) k = ' ' ∨
        chAt (stripCommentsAndStrings text) k = '\t') →
      (chAt (stripCommentsAndStrings text) k = '\n' ∨
        chAt (stripCommentsAndStrings text) k = '\r' ∨
        chAt (stripCommentsAndStrings text) k = ';')) ∧
    findCodeBlock "(\n  1 + 1\n) + 2".toList 4 = "1 + 1".toList := by
  constructor
  · intro text raw i j k hres hk1 hk2 hpre hcur
    simp only [scanResult] at hres
    rcases scanAux_range text (stripCommentsAndStrings text) (min raw text.length)
        (lineOf text (min raw text.length)) (min raw text.length) 0 none
        (le_refl _) (sliceD_empty _ _).symm with hnone | ⟨k0, j0, hk0, hv, hf, heq⟩
    · rw [hnone] at hres
      exact Option.noConfusion hres
    · rw [heq] at hres
      injection hres with hpair
      cases hpair
      obtain ⟨-, -, -, j2, hf2, hvend, -⟩ :=
        (validAtB_iff text (stripCommentsAndStrings text) (min raw text.length)
          (lineOf text (min raw text.length)) i).mp hv
      rw [hf] at hf2
      injection hf2 with hj2
      subst hj2
      unfold isValidRegionEnd at hvend
      have hlen : k - (j + 1) < ((stripCommentsAndStrings text).drop (j + 1)).length := by
        rw [List.length_drop]; omega
      have hco : j + 1 + (k - (j + 1)) = k := by omega
      have hres2 := validEndAux_decl _ hvend (k - (j + 1)) hlen
        (fun m2 hm2 => by
          rw [chAt_drop]
          exact hpre (j + 1 + m2) (by omega) (by omega))
        (by rw [chAt_drop, hco]; exact hcur)
      rw [chAt_drop, hco] at hres2
      exact hres2
  · decide

/-- C4 (witness): on `"(\n1\n) ;x"` with the cursor at offset 2 the scan
returns the region `[0, 5)`; the first non-blank character after the
close is the `;` at index 6, and the theorem reports it as such. -/
theorem findCodeBlock_region_end_witness :
    (chAt (stripCommentsAndStrings "(\n1\n) ;x".toList) 6 = '\n' ∨
      chAt (stripCommentsAndStrings "(\n1\n) ;x".toList) 6 = '\r' ∨
      chAt (stripCommentsAndStrings "(\n1\n) ;x".toList) 6 = ';') :=
  findCodeBlock_region_end.1 "(\n1\n) ;x".toList 2 0 4 6 (by decide) (by decide)
    (by decide) (by decide) (by decide)

/-- C3 (amended claim theorem): during the backward scan a `(` is treated
as a candidate open exactly when the depth after decrementing is at most
`0` and the `(` is line-initial in the ORIGINAL text — the guard the scan
evaluates is equivalent to that declarative condition. -/
theorem candidateGuard_characterization (text : List Char) (i : Nat) (dAfter : Int) :
    candidateGuard text i dAfter = true ↔ (dAfter ≤ 0 ∧ LineInitial text i) := by
  simp only [candidateGuard, Bool.and_eq_true, decide_eq_true_eq]
  rw [isStartOfLine_iff_lineInitial]
  exact and_comm

/-- C3 (counterexample): in `"/*x*/(\n1\n)"` with the cursor at offset 7
the `(` at index 5 is preceded in the MASKED text only by blanks (the
blanked block comment), its depth condition and closing validity hold —
per the claim it would be a candidate open and the block `"(\n1\n)"`
would be returned.  But `isStartOfLine` consults the ORIGINAL text, where
`/` precedes, so the code records no candidate and falls back to the
trimmed cursor line `"1"`. -/
theorem candidateGuard_masked_counterexample :
    isStartOfLine (stripCommentsAndStrings "/*x*/(\n1\n)".toList) 5 = true ∧
    chAt (stripCommentsAndStrings "/*x*/(\n1\n)".toList) 5 = '(' ∧
    sliceD (stripCommentsAndStrings "/*x*/(\n1\n)".toList) 5 7 ≤ 0 ∧
    findMatchingClosing (stripCommentsAndStrings "/*x*/(\n1\n)".toList) 5 = some 9 ∧
    isValidRegionEnd (stripCommentsAndStrings "/*x*/(\n1\n)".toList) 9 = true ∧
    isStartOfLine "/*x*/(\n1\n)".toList 5 = false ∧
    findCodeBlock "/*x*/(\n1\n)".toList 7 = "1".toList ∧
    findCodeBlock "/*x*/(\n1\n)".toList 7 ≠ "(\n1\n)".toList := by
  decide

/-- C8 (amended claim theorem): the `$` character-literal exception
applies only when a single quote is reached in normal scanning — such a
quote does not OPEN a symbol and is copied (first conjunct); a quote that
closes an already-open symbol region is a delimiter regardless of the
preceding character (second conjunct, no `$` test); concretely `"$' x"`
is left fully intact, while in `'a$'b'` the `$`-preceded quote closes the
symbol and `b` survives the mask. -/
theorem squote_dollar_exception :
    (∀ rest : List Char,
      maskGo (.main (some '$')) (squote :: rest) =
        squote :: maskGo (.main (some squote)) rest) ∧
    (∀ (q : Char) (rest : List Char),
      maskGo (.strC q) (q :: rest) = ' ' :: maskGo (.main (some q)) rest) ∧
    stripCommentsAndStrings "$' x".toList = "$' x".toList ∧
    stripCommentsAndStrings [squote, 'a', '$', squote, 'b', squote] =
      [' ', ' ', ' ', ' ', 'b', ' '] := by
  exact ⟨maskGo_main_squote_copy, maskGo_strC_close, by decide, by decide⟩

/-- C8 (counterexample): the claim reads the exception as applying to
closing delimiters too ("neither opens nor closes").  `stripClaimC8`
implements that reading; on `'a$'b'` it blanks everything (the region
never closes at the `$`-preceded quote), while the source masker closes
the symbol there and leaves `b` visible — the two disagree, so the claim
as stated is false of the code. -/
theorem squote_dollar_exception_counterexample :
    stripClaimC8 [squote, 'a', '$', squote, 'b', squote] ≠
      stripCommentsAndStrings [squote, 'a', '$', squote, 'b', squote] ∧
    chAt (stripCommentsAndStrings [squote, 'a', '$', squote, 'b', squote]) 4 = 'b' ∧
    chAt (stripClaimC8 [squote, 'a', '$', squote, 'b', squote]) 4 = ' ' := by
  decide

end Envil
